import Mathlib

/-!
# s3edit: the locator parser, the editor prompt and the edit workflow

A shallow embedding of `s3edit.go`.

* A Go `string` is modelled as the list of its Unicode code points (valid
  UTF-8 text).  The parser only looks at ASCII bytes (`s3://`, `/`), and a
  byte of an ASCII character never occurs inside the encoding of another
  character, so byte offsets into the prefix and at a `/` coincide with
  code-point offsets.
* A Go `[]byte` is a list of bytes.
* A Go `error` is the value carrying its message; `nil` is `none`.
-/

namespace s3edit

/-- Go `string`. -/
abbrev GoString := List Char

/-- Go `[]byte`. -/
abbrev Bytes := List UInt8

/-- Go `error` (non-nil), identified by the text `Error()` returns. -/
structure GoError where
  Error : GoString
deriving DecidableEq, Repr

/-! ## Package `strings` -/

namespace strings

/-- Go `strings.HasPrefix(s, prefix)`:
`len(s) >= len(prefix) && s[:len(prefix)] == prefix`. -/
def HasPrefix (s pre : GoString) : Bool :=
  decide (s.length ≥ pre.length) && decide (s.take pre.length = pre)

/-- Search of `Index`: `s` is what is left to scan, `i` the offset of its
first character. -/
def IndexFrom (sep : GoString) : GoString → Nat → Int
  | [], i => if HasPrefix [] sep then (i : Int) else -1
  | c :: cs, i => if HasPrefix (c :: cs) sep then (i : Int) else IndexFrom sep cs (i + 1)

/-- Go `strings.Index(s, substr)`: the index of the first instance of `substr`
in `s`, or -1 if `substr` is not present in `s`. -/
def Index (s sep : GoString) : Int := IndexFrom sep s 0

/-- Search of `LastIndex`: `best` is the last match found so far. -/
def LastIndexFrom (sep : GoString) : GoString → Nat → Int → Int
  | [], i, best => if HasPrefix [] sep then (i : Int) else best
  | c :: cs, i, best =>
      LastIndexFrom sep cs (i + 1) (if HasPrefix (c :: cs) sep then (i : Int) else best)

/-- Go `strings.LastIndex(s, substr)`: the index of the last instance of
`substr` in `s`, or -1 if `substr` is not present in `s`. -/
def LastIndex (s sep : GoString) : Int := LastIndexFrom sep s 0 (-1)

/-- Go `strings.SplitN(s, sep, n)` for a non-empty `sep` and `n ≥ 0`: at most `n`
substrings, the last one being the unsplit remainder; `n = 0` gives no
substrings.  The loop of `genSplit`: cut at `Index(s, sep)` while fewer than
`n - 1` pieces have been cut and the separator is still found. -/
def SplitN (s sep : GoString) : Nat → List GoString
  | 0 => []
  | 1 => [s]
  | n + 2 =>
      let m := Index s sep
      if m < 0 then [s]
      else s.take m.toNat :: SplitN (s.drop (m.toNat + sep.length)) sep (n + 1)

end strings

/-! ## The locator and its parser -/

/-- The Go struct `S3Edit`. -/
structure S3Edit where
  BucketName : GoString
  Key : GoString
  FileName : GoString
deriving DecidableEq, Repr

/-- The text `fmt.Errorf("Invalid S3 path: %s", s3Path)` formats. -/
def invalidPath (s3Path : GoString) : GoError :=
  ⟨"Invalid S3 path: ".toList ++ s3Path⟩

/-- Function `ParseS3Path` (s3edit.go, lines 130-146).  `(nil, err)` is
`Except.error err`, `(&S3Edit{..}, nil)` is `Except.ok`. -/
def ParseS3Path (s3Path : GoString) : Except GoError S3Edit :=
  if !strings.HasPrefix s3Path "s3://".toList then
    .error (invalidPath s3Path)
  else
    match strings.SplitN (s3Path.drop 5) "/".toList 2 with
    | [bucket, key] =>
        let fileName := key.drop (strings.LastIndex key "/".toList + 1).toNat
        .ok { BucketName := bucket, Key := key, FileName := fileName }
    | _ => .error (invalidPath s3Path)

/-! ## The editor prompt -/

/-- Go `unicode.IsSpace(r)`: the Latin-1 cases listed in the function, and the
`White_Space` table above Latin-1. -/
def unicode.IsSpace (r : Char) : Bool :=
  let n := r.toNat
  if n ≤ 0xFF then
    n = 0x09 || n = 0x0A || n = 0x0B || n = 0x0C || n = 0x0D || n = 0x20 || n = 0x85 || n = 0xA0
  else
    n = 0x1680 || (0x2000 ≤ n && n ≤ 0x200A) || n = 0x2028 || n = 0x2029 || n = 0x202F
      || n = 0x205F || n = 0x3000

/-- Go `strings.TrimSpace(s)`: `s` with all leading and trailing white space
removed, as defined by Unicode. -/
def strings.TrimSpace (s : GoString) : GoString :=
  ((s.dropWhile unicode.IsSpace).reverse.dropWhile unicode.IsSpace).reverse

/-- The text `fmt.Printf("Invalid input. Please enter one of %v.\n", allowedValues)`
prints: `%v` of a `[]string` is its elements separated by a blank, in square
brackets. -/
def invalidInput (allowedValues : List GoString) : GoString :=
  "Invalid input. Please enter one of [".toList ++ " ".toList.intercalate allowedValues
    ++ "].\n".toList

/-! ### Package `fmt`: `Scanln` of one string

Standard input is the list of the characters not read yet.  `os.Stdin` is no
`io.RuneScanner`, so `Scanln` reads it one character at a time and reads
nothing past the last character it looks at. -/

/-- The table `space` of package `fmt`: the ranges of the space characters,
in increasing order. -/
def fmt.space : List (Nat × Nat) :=
  [(0x0009, 0x000d), (0x0020, 0x0020), (0x0085, 0x0085), (0x00a0, 0x00a0), (0x1680, 0x1680),
    (0x2000, 0x200a), (0x2028, 0x2029), (0x202f, 0x202f), (0x205f, 0x205f), (0x3000, 0x3000)]

/-- The loop of `isSpace` over the table: `false` below a range, `true`
inside it, else the next range. -/
def fmt.isSpaceIn : List (Nat × Nat) → Nat → Bool
  | [], _ => false
  | rng :: rest, rx =>
      if rx < rng.1 then false
      else if rx ≤ rng.2 then true
      else fmt.isSpaceIn rest rx

/-- Package `fmt`, `isSpace(r)`: `false` from `1<<16` on, else the search of
the table. -/
def fmt.isSpace (r : Char) : Bool :=
  if r.toNat ≥ 0x10000 then false else fmt.isSpaceIn fmt.space r.toNat

/-- The end of `doScan` for `Scanln`: read up to and including the newline
or up to the end of input; a character that is no space is read too and ends
the call (`expected newline`).  Returns what is left unread. -/
def fmt.Scanln.newline : List Char → List Char
  | [] => []
  | r :: rest =>
      if r = '\n' then rest
      else if !fmt.isSpace r then rest
      else fmt.Scanln.newline rest

/-- The loop of `ss.token(true, notSpace)`: the characters up to the first
space or the end of input, and what is left unread (the space is put back). -/
def fmt.Scanln.token : List Char → GoString × List Char
  | [] => ([], [])
  | r :: rest =>
      if fmt.isSpace r then ([], r :: rest)
      else ((r :: (fmt.Scanln.token rest).1), (fmt.Scanln.token rest).2)

/-- Go `fmt.Scanln(&input)` on a fresh `input`: the string `input` holds
afterwards and what is left unread.  `SkipSpace` reads the leading spaces; a
newline there (`unexpected newline`) or the end of input (`EOF`) ends the call
with `input` still empty.  Otherwise `input` is the next word and the rest of
the line is read as in `fmt.Scanln.newline`.  A carriage return is a space
like the others: the look-ahead of `SkipSpace` for a newline after it puts
back what it read.  The error is dropped, as by the caller. -/
def fmt.Scanln : List Char → GoString × List Char
  | [] => ([], [])
  | r :: rest =>
      if r = '\n' then ([], rest)
      else if fmt.isSpace r then fmt.Scanln rest
      else ((fmt.Scanln.token (r :: rest)).1, fmt.Scanln.newline (fmt.Scanln.token (r :: rest)).2)

/-- What a call of `getUserInput` that returns has done. -/
structure Prompted where
  /-- The returned string. -/
  value : GoString
  /-- The characters of standard input it has not read. -/
  stdin : List Char
  /-- The texts it has written to standard output, first to last. -/
  stdout : List GoString
deriving DecidableEq, Repr

/-- The loop of `getUserInput`, run for at most `fuel` iterations; `none`
when it has not returned by then. -/
def getUserInput.loop (promptText : GoString) (allowedValues : List GoString) :
    Nat → List Char → Option Prompted
  | 0, _ => none
  | fuel + 1, stdin =>
      let scanned := fmt.Scanln stdin
      let trimmedInput := strings.TrimSpace scanned.1
      if allowedValues.any (fun allowedValue => decide (trimmedInput = allowedValue)) then
        some ⟨trimmedInput, scanned.2, [promptText]⟩
      else
        (getUserInput.loop promptText allowedValues fuel scanned.2).map fun r =>
          { r with stdout := promptText :: invalidInput allowedValues :: r.stdout }

/-- Function `getUserInput` (s3edit.go, lines 113-128) on the characters
`stdin` of standard input.  Every iteration before the end of input reads at
least one character, and at the end of input every iteration finds the same
empty `input`; so one iteration per character and one more decide whether the
loop returns, and `none` is a loop that runs for ever. -/
def getUserInput (promptText : GoString) (allowedValues : List GoString)
    (stdin : List Char) : Option Prompted :=
  getUserInput.loop promptText allowedValues (stdin.length + 1) stdin

/-- The texts on standard output after `n` entries have been rejected and
the prompt has been shown once more: per rejected entry the prompt and the
message of rejection. -/
def promptedAfter (promptText : GoString) (allowedValues : List GoString) : Nat → List GoString
  | 0 => [promptText]
  | n + 1 => promptText :: invalidInput allowedValues :: promptedAfter promptText allowedValues n

/-- The characters of standard input when the entries are typed one per
line, each ended by a newline. -/
def typed : List GoString → List Char
  | [] => []
  | entry :: rest => entry ++ '\n' :: typed rest

/-- Whether an entry is one word on one line: it has no newline, and what is
left of it after the spaces around it are trimmed has no space (it may be
empty). -/
def oneWord (entry : GoString) : Bool :=
  entry.all (fun c => decide (c ≠ '\n'))
    && (strings.TrimSpace entry).all (fun c => !unicode.IsSpace c)

/-- The prompt text `Run` passes to `getUserInput`. -/
def editorPrompt : GoString := "Enter the text editor to use (vi, vim, nano): ".toList

/-- The allowed values `Run` passes to `getUserInput`. -/
def editors : List GoString := ["vi".toList, "vim".toList, "nano".toList]

/-! ## The edit workflow

The object store, the file system and the terminal are explicit state.  What
the outside world decides (whether a call fails and with which error, the name
the temporary file gets, what the editor process does to the files) is the
environment `Env`.  `Run` returns its error, the state it leaves and the trace
of the calls it made. -/

/-- A stored object. -/
structure Object where
  Body : Bytes
  ContentType : GoString
deriving DecidableEq, Repr

/-- The fields of `s3.GetObjectInput` that `Run` sets. -/
structure GetObjectInput where
  Bucket : GoString
  Key : GoString
deriving DecidableEq, Repr

/-- The fields of `s3.PutObjectInput` that `Run` sets. -/
structure PutObjectInput where
  Bucket : GoString
  Key : GoString
  Body : Bytes
  ContentType : GoString
deriving DecidableEq, Repr

/-- The files, by path. -/
abbrev Files := GoString → Option Bytes

/-- The objects, by bucket and key. -/
abbrev Store := GoString → GoString → Option Object

/-- The state `Run` acts on. -/
structure World where
  store : Store
  fs : Files
  /-- The characters of standard input not read yet. -/
  stdin : List Char

/-- What the outside world decides during one run.  An `Option GoError` is
the error the call reports, `none` when it succeeds. -/
structure Env where
  /-- Go `session.NewSession()`. -/
  NewSession : Option GoError
  /-- Go `svc.GetObject`: a failure of the request other than a missing object. -/
  GetObject : Option GoError
  /-- Go `io.Copy` of the response body. -/
  Copy : Option GoError
  /-- Go `os.TempDir()`, the directory `os.CreateTemp("", ..)` uses. -/
  TempDir : GoString
  /-- The random string `os.CreateTemp` puts in place of the `*`. -/
  Random : GoString
  /-- Go `os.CreateTemp`: a failure other than a name clash. -/
  CreateTemp : Option GoError
  /-- Go `tmpfile.Write`: on failure, the number of bytes written and the error. -/
  Write : Option (Nat × GoError)
  /-- Go `tmpfile.Close`. -/
  Close : Option GoError
  /-- Go `cmd.Run()` of the editor on a file: the files it leaves, and the error
  when it could not be started or exited with a non-zero status. -/
  Command : GoString → GoString → Files → Files × Option GoError
  /-- Go `os.ReadFile`: a failure other than a missing file. -/
  ReadFile : Option GoError
  /-- Go `svc.PutObject`: on failure, the error and whether the store had taken
  the object all the same. -/
  PutObject : Option (GoError × Bool)
  /-- Go `http.DetectContentType`. -/
  DetectContentType : Bytes → GoString

/-- A call `Run` made, with what it was given and what it reported. -/
inductive Event where
  | NewSession (err : Option GoError)
  | GetObject (input : GetObjectInput) (err : Option GoError)
  | Copy (err : Option GoError)
  | CreateTemp (name : Option GoString) (err : Option GoError)
  | Write (name : GoString) (b : Bytes) (err : Option GoError)
  | Close (name : GoString) (err : Option GoError)
  /-- A text written to standard output. -/
  | Print (text : GoString)
  | Command (editor : GoString) (name : GoString) (err : Option GoError)
  | ReadFile (name : GoString) (content : Bytes) (err : Option GoError)
  | PutObject (input : PutObjectInput) (err : Option GoError)
  /-- The deferred `os.Remove(tmpfile.Name())`. -/
  | Remove (name : GoString) (err : Option GoError)
  /-- The deferred `resp.Body.Close()`. -/
  | BodyClose
deriving DecidableEq, Repr

/-- The error of a missing file, as package `os` words it. -/
def notExist (op : GoString) (name : GoString) : GoError :=
  ⟨op ++ " ".toList ++ name ++ ": no such file or directory".toList⟩

/-- Go `svc.GetObject(input)` followed by reading the body: the bytes of the
object, or an error when the request fails or there is no such object. -/
def s3GetObject (env : Env) (store : Store) (input : GetObjectInput) : Except GoError Bytes :=
  match env.GetObject with
  | some e => .error e
  | none =>
    match store input.Bucket input.Key with
    | none => .error ⟨"NoSuchKey: The specified key does not exist.".toList⟩
    | some obj => .ok obj.Body

/-- The store after `svc.PutObject(input)` has taken effect. -/
def s3PutObject (store : Store) (input : PutObjectInput) : Store :=
  fun bucket key =>
    if bucket = input.Bucket ∧ key = input.Key then some ⟨input.Body, input.ContentType⟩
    else store bucket key

/-- The files after the file `name` has got the content `b`. -/
def fsWrite (fs : Files) (name : GoString) (b : Bytes) : Files :=
  fun p => if p = name then some b else fs p

/-- Go `os.CreateTemp("", "S3Edit-*")`: a new empty file in the temporary
directory whose name is the pattern with the `*` replaced by a random string.
The name is never one of an existing file. -/
def osCreateTemp (env : Env) (fs : Files) : Except GoError (GoString × Files) :=
  match env.CreateTemp with
  | some e => .error e
  | none =>
    let name := env.TempDir ++ "/".toList ++ "S3Edit-".toList ++ env.Random
    match fs name with
    | some _ => .error ⟨"open ".toList ++ name ++ ": file exists".toList⟩
    | none => .ok (name, fsWrite fs name [])

/-- Go `os.ReadFile(name)`. -/
def osReadFile (env : Env) (fs : Files) (name : GoString) : Except GoError Bytes :=
  match env.ReadFile with
  | some e => .error e
  | none =>
    match fs name with
    | none => .error (notExist "open".toList name)
    | some b => .ok b

/-- Go `os.Remove(name)`: removes the file; reports an error and changes
nothing when there is no such file.  The removal of an existing file is taken
to succeed: the file is one this process has just created. -/
def osRemove (fs : Files) (name : GoString) : Files × Option GoError :=
  match fs name with
  | none => (fs, some (notExist "remove".toList name))
  | some _ => (fun p => if p = name then none else fs p, none)

/-- What a call of `Run` that returns has done. -/
structure Outcome where
  /-- The returned error, `none` for `nil`. -/
  err : Option GoError
  /-- The state it leaves. -/
  world : World
  /-- The calls it made, first to last. -/
  trace : List Event

/-- The text `fmt.Println("File saved successfully.")` prints. -/
def savedMessage : GoString := "File saved successfully.\n".toList

/-- Function `Run` from the write to the temporary file to the return (s3edit.go,
lines 75-110): `name` is `tmpfile.Name()`, `fileContent` the fetched bytes. -/
def Run.edit (env : Env) (s : S3Edit) (w : World) (name : GoString) (fileContent : Bytes) :
    Option Outcome :=
  match env.Write with
  | some (n, e) =>
    some ⟨some e, { w with fs := fsWrite w.fs name (fileContent.take n) },
      [.Write name fileContent (some e)]⟩
  | none =>
    let w1 : World := { w with fs := fsWrite w.fs name fileContent }
    match env.Close with
    | some e => some ⟨some e, w1, [.Write name fileContent none, .Close name (some e)]⟩
    | none =>
      match getUserInput editorPrompt editors w1.stdin with
      | none => none
      | some asked =>
        let editor := asked.value
        let ran := env.Command editor name w1.fs
        let w2 : World := { w1 with fs := ran.1, stdin := asked.stdin }
        let tr : List Event :=
          [.Write name fileContent none, .Close name none] ++ asked.stdout.map Event.Print
            ++ [.Command editor name ran.2]
        match ran.2 with
        | some e => some ⟨some e, w2, tr⟩
        | none =>
          match osReadFile env w2.fs name with
          | .error e => some ⟨some e, w2, tr ++ [.ReadFile name [] (some e)]⟩
          | .ok updatedFileContent =>
            let input : PutObjectInput :=
              { Bucket := s.BucketName, Key := s.Key, Body := updatedFileContent,
                ContentType := env.DetectContentType updatedFileContent }
            match env.PutObject with
            | some (e, taken) =>
              some ⟨some e,
                { w2 with store := if taken then s3PutObject w2.store input else w2.store },
                tr ++ [.ReadFile name updatedFileContent none, .PutObject input (some e)]⟩
            | none =>
              some ⟨none, { w2 with store := s3PutObject w2.store input },
                tr ++ [.ReadFile name updatedFileContent none, .PutObject input none,
                  .Print savedMessage]⟩

/-- Function `Run` from the copy of the response body to the return (s3edit.go,
lines 63-110), `body` being what the response body holds.  The deferred
`os.Remove(tmpfile.Name())` runs when the rest of the function returns. -/
def Run.fetched (env : Env) (s : S3Edit) (w : World) (body : Bytes) : Option Outcome :=
  match env.Copy with
  | some e => some ⟨some e, w, [.Copy (some e)]⟩
  | none =>
    match osCreateTemp env w.fs with
    | .error e => some ⟨some e, w, [.Copy none, .CreateTemp none (some e)]⟩
    | .ok (name, fs1) =>
      (Run.edit env s { w with fs := fs1 } name body).map fun o =>
        let removed := osRemove o.world.fs name
        { o with
          world := { o.world with fs := removed.1 }
          trace := [.Copy none, .CreateTemp (some name) none] ++ o.trace
            ++ [.Remove name removed.2] }

/-- Method `(s *S3Edit) Run()` (s3edit.go, lines 46-111).  `none` when it does not
return (the prompt never gets an allowed value).  The deferred
`resp.Body.Close()` runs when the rest of the function returns. -/
def Run (env : Env) (s : S3Edit) (w : World) : Option Outcome :=
  match env.NewSession with
  | some e => some ⟨some e, w, [.NewSession (some e)]⟩
  | none =>
    let input : GetObjectInput := { Bucket := s.BucketName, Key := s.Key }
    match s3GetObject env w.store input with
    | .error e => some ⟨some e, w, [.NewSession none, .GetObject input (some e)]⟩
    | .ok body =>
      (Run.fetched env s w body).map fun o =>
        { o with
          trace := [.NewSession none, .GetObject input none] ++ o.trace ++ [.BodyClose] }

/-- The error of a failed step that comes before the upload; `none` for an
event that is no such failure. -/
def Event.failedBeforeUpload : Event → Option GoError
  | .NewSession err => err
  | .GetObject _ err => err
  | .Copy err => err
  | .CreateTemp _ err => err
  | .Write _ _ err => err
  | .Close _ err => err
  | .Command _ _ err => err
  | .ReadFile _ _ err => err
  | _ => none

/-- Whether the event is one of the two deferred calls. -/
def Event.isDeferred : Event → Bool
  | .Remove _ _ => true
  | .BodyClose => true
  | _ => false

/-- Whether the event is a `PutObject` request. -/
def Event.isPutObject : Event → Bool
  | .PutObject _ _ => true
  | _ => false

/-! ## The end-to-end scenario -/

/-- The conversion `[]byte(s)` of a string constant. -/
def bytes (s : String) : Bytes := s.toUTF8.data.toList

/-- The locator `ParseS3Path` returns for `s3://my-bucket/configs/app.yaml`. -/
def scenarioLocator : S3Edit :=
  { BucketName := "my-bucket".toList, Key := "configs/app.yaml".toList,
    FileName := "app.yaml".toList }

/-- A world whose store holds `a: 1\n` at `my-bucket`, `configs/app.yaml`,
with no files, where the line `vim` is typed at the prompt. -/
def scenarioWorld : World :=
  { store := fun bucket key =>
      if bucket = "my-bucket".toList ∧ key = "configs/app.yaml".toList then
        some ⟨bytes "a: 1\n", "text/plain".toList⟩
      else none
    fs := fun _ => none
    stdin := "vim\n".toList }

/-- An environment in which every call succeeds and the editor replaces the
content of the file it is given by `a: 2\n`. -/
def scenarioEnv : Env :=
  { NewSession := none
    GetObject := none
    Copy := none
    TempDir := "/tmp".toList
    Random := "1234".toList
    CreateTemp := none
    Write := none
    Close := none
    Command := fun _ name fs => (fsWrite fs name (bytes "a: 2\n"), none)
    ReadFile := none
    PutObject := none
    DetectContentType := fun _ => "text/plain; charset=utf-8".toList }

/-- The scenario with an editor that removes the file it is given and exits
with status 0. -/
def scenarioEnvRemoving : Env :=
  { scenarioEnv with
    Command := fun _ name fs => (fun p => if p = name then none else fs p, none) }

/-- The scenario with an editor that changes the file and exits with a
non-zero status. -/
def scenarioEnvExit : Env :=
  { scenarioEnv with
    Command := fun _ name fs => (fsWrite fs name (bytes "a: 2\n"), some ⟨"exit status 1".toList⟩) }

/-! ## Facts about the `strings` functions at a one-character separator -/

theorem scheme_toList : "s3://".toList = ['s', '3', ':', '/', '/'] := rfl

theorem slash_toList : "/".toList = ['/'] := rfl

theorem hasPrefix_nil_single (c : Char) : strings.HasPrefix [] [c] = false := by
  simp [strings.HasPrefix]

theorem hasPrefix_cons_single (x c : Char) (xs : GoString) :
    strings.HasPrefix (x :: xs) [c] = decide (x = c) := by
  simp [strings.HasPrefix]

theorem hasPrefix_iff (s pre : GoString) :
    strings.HasPrefix s pre = true ↔ ∃ r, s = pre ++ r := by
  constructor
  · intro h
    simp only [strings.HasPrefix, Bool.and_eq_true, decide_eq_true_eq] at h
    refine ⟨s.drop pre.length, ?_⟩
    conv_lhs => rw [← List.take_append_drop pre.length s]
    rw [h.2]
  · rintro ⟨r, rfl⟩
    simp [strings.HasPrefix]

theorem exists_first (c : Char) (s : GoString) (h : c ∈ s) :
    ∃ a b, s = a ++ c :: b ∧ c ∉ a := by
  induction s with
  | nil => simp at h
  | cons x xs ih =>
    by_cases hx : x = c
    · exact ⟨[], xs, by simp [hx], by simp⟩
    · have hc : c ∈ xs := by
        rcases List.mem_cons.1 h with h1 | h1
        · exact absurd h1.symm hx
        · exact h1
      obtain ⟨a, b, hab, ha⟩ := ih hc
      refine ⟨x :: a, b, by simp [hab], ?_⟩
      simp only [List.mem_cons, not_or]
      exact ⟨fun e => hx e.symm, ha⟩

theorem exists_last (c : Char) (s : GoString) (h : c ∈ s) :
    ∃ a b, s = a ++ c :: b ∧ c ∉ b := by
  induction s with
  | nil => simp at h
  | cons x xs ih =>
    by_cases hc : c ∈ xs
    · obtain ⟨a, b, hab, hb⟩ := ih hc
      exact ⟨x :: a, b, by simp [hab], hb⟩
    · have hx : x = c := by
        rcases List.mem_cons.1 h with h1 | h1
        · exact h1.symm
        · exact absurd h1 hc
      exact ⟨[], xs, by simp [hx], hc⟩

theorem indexFrom_not_mem (c : Char) (s : GoString) (i : Nat) (h : c ∉ s) :
    strings.IndexFrom [c] s i = -1 := by
  induction s generalizing i with
  | nil => simp [strings.IndexFrom, hasPrefix_nil_single]
  | cons x xs ih =>
    simp only [List.mem_cons, not_or] at h
    have hx : ¬ x = c := fun e => h.1 e.symm
    simp [strings.IndexFrom, hasPrefix_cons_single, hx, ih (i + 1) h.2]

theorem indexFrom_first (c : Char) (a b : GoString) (i : Nat) (h : c ∉ a) :
    strings.IndexFrom [c] (a ++ c :: b) i = ((i + a.length : Nat) : Int) := by
  induction a generalizing i with
  | nil => simp [strings.IndexFrom, hasPrefix_cons_single]
  | cons x xs ih =>
    simp only [List.mem_cons, not_or] at h
    have hx : ¬ x = c := fun e => h.1 e.symm
    have hstep : strings.IndexFrom [c] (x :: (xs ++ c :: b)) i
        = strings.IndexFrom [c] (xs ++ c :: b) (i + 1) := by
      rw [strings.IndexFrom]
      simp [hasPrefix_cons_single, hx]
    rw [List.cons_append, hstep, ih (i + 1) h.2, List.length_cons]
    congr 1
    omega

theorem lastIndexFrom_not_mem (c : Char) (s : GoString) (i : Nat) (best : Int) (h : c ∉ s) :
    strings.LastIndexFrom [c] s i best = best := by
  induction s generalizing i best with
  | nil => simp [strings.LastIndexFrom, hasPrefix_nil_single]
  | cons x xs ih =>
    simp only [List.mem_cons, not_or] at h
    have hx : ¬ x = c := fun e => h.1 e.symm
    simp [strings.LastIndexFrom, hasPrefix_cons_single, hx, ih _ _ h.2]

theorem lastIndexFrom_last (c : Char) (a b : GoString) (i : Nat) (best : Int) (h : c ∉ b) :
    strings.LastIndexFrom [c] (a ++ c :: b) i best = ((i + a.length : Nat) : Int) := by
  induction a generalizing i best with
  | nil =>
    simp [strings.LastIndexFrom, hasPrefix_cons_single, lastIndexFrom_not_mem c b _ _ h]
  | cons x xs ih =>
    have hstep : strings.LastIndexFrom [c] (x :: (xs ++ c :: b)) i best
        = strings.LastIndexFrom [c] (xs ++ c :: b) (i + 1)
            (if strings.HasPrefix (x :: (xs ++ c :: b)) [c] then (i : Int) else best) := by
      rw [strings.LastIndexFrom]
    rw [List.cons_append, hstep, ih (i + 1) _, List.length_cons]
    congr 1
    omega

/-- The file name `ParseS3Path` derives from a key:
`key[strings.LastIndex(key, "/")+1:]`. -/
theorem fileName_no_slash (key : GoString) (h : '/' ∉ key) :
    key.drop (strings.LastIndex key "/".toList + 1).toNat = key := by
  simp [strings.LastIndex, slash_toList, lastIndexFrom_not_mem _ _ _ _ h]

theorem fileName_last (a b : GoString) (h : '/' ∉ b) :
    (a ++ '/' :: b).drop (strings.LastIndex (a ++ '/' :: b) "/".toList + 1).toNat = b := by
  rw [strings.LastIndex, slash_toList, lastIndexFrom_last _ _ _ _ _ h]
  have : (((0 + a.length : Nat) : Int) + 1).toNat = a.length + 1 := by omega
  rw [this]
  simp

/-- What `strings.SplitN(s, "/", 2)` returns: one piece when `s` has no `/`,
otherwise the text before the first `/` and the text after it. -/
theorem splitN_two_no_slash (s : GoString) (h : '/' ∉ s) :
    strings.SplitN s "/".toList 2 = [s] := by
  simp [strings.SplitN, strings.Index, slash_toList, indexFrom_not_mem _ _ _ h]

theorem splitN_two_first (a b : GoString) (h : '/' ∉ a) :
    strings.SplitN (a ++ '/' :: b) "/".toList 2 = [a, b] := by
  have hm : strings.Index (a ++ '/' :: b) ['/'] = (a.length : Int) := by
    rw [strings.Index, indexFrom_first _ _ _ _ h]; simp
  simp [strings.SplitN, slash_toList, hm]

/-- Characterisation of the accepted inputs of `ParseS3Path` and of what it
returns on them. -/
theorem parse_ok_iff (s : GoString) (loc : S3Edit) :
    ParseS3Path s = .ok loc ↔
      ∃ bucket key, s = "s3://".toList ++ bucket ++ '/' :: key ∧ '/' ∉ bucket ∧
        loc = ⟨bucket, key, key.drop (strings.LastIndex key "/".toList + 1).toNat⟩ := by
  rw [scheme_toList]
  constructor
  · intro h
    unfold ParseS3Path at h
    rw [scheme_toList] at h
    by_cases hp : strings.HasPrefix s ['s', '3', ':', '/', '/'] = true
    · obtain ⟨r, rfl⟩ := (hasPrefix_iff _ _).1 hp
      have hd : (['s', '3', ':', '/', '/'] ++ r).drop 5 = r := by simp
      rw [hd] at h
      by_cases hr : '/' ∈ r
      · obtain ⟨a, b, rfl, ha⟩ := exists_first _ _ hr
        rw [splitN_two_first _ _ ha] at h
        simp only [hp, Bool.not_true, Bool.false_eq_true, if_false, Except.ok.injEq] at h
        exact ⟨a, b, by simp, ha, h.symm⟩
      · rw [splitN_two_no_slash _ hr] at h
        simp [hp] at h
    · simp [hp] at h
  · rintro ⟨bucket, key, rfl, hb, rfl⟩
    have hp : strings.HasPrefix (['s', '3', ':', '/', '/'] ++ bucket ++ '/' :: key)
        ['s', '3', ':', '/', '/'] = true :=
      (hasPrefix_iff _ _).2 ⟨bucket ++ '/' :: key, by simp⟩
    have hd : (['s', '3', ':', '/', '/'] ++ bucket ++ '/' :: key).drop 5 = bucket ++ '/' :: key := by
      simp
    unfold ParseS3Path
    rw [scheme_toList, hd, splitN_two_first _ _ hb, hp]
    rfl

theorem intercalate_getLast (Ks : List GoString) (hne : Ks ≠ []) :
    ['/'].intercalate Ks = Ks.getLast hne ∨
      ∃ a, ['/'].intercalate Ks = a ++ '/' :: Ks.getLast hne := by
  induction Ks with
  | nil => exact absurd rfl hne
  | cons k rest ih =>
    cases rest with
    | nil => left; simp [List.intercalate]
    | cons k2 rest2 =>
      have hstep : ['/'].intercalate (k :: k2 :: rest2)
          = k ++ '/' :: ['/'].intercalate (k2 :: rest2) := by
        simp [List.intercalate]
      have hl : (k :: k2 :: rest2).getLast hne = (k2 :: rest2).getLast (by simp) := by
        simp [List.getLast_cons]
      right
      rw [hstep, hl]
      rcases ih (by simp) with h | ⟨a, h⟩
      · exact ⟨k, by rw [h]⟩
      · exact ⟨k ++ '/' :: a, by rw [h]; simp⟩

/-! ## The locator parser -/

/-- C1: for a non-empty container `C` without `/` and non-empty segments
`K1..Kn` (n ≥ 1) without `/`, `ParseS3Path` applied to
`s3://C/K1/../Kn` succeeds with BucketName `C`, Key `K1/../Kn` and FileName
`Kn`. -/
theorem parse_valid_locator (C : GoString) (Ks : List GoString)
    (_hC : C ≠ []) (hCs : '/' ∉ C) (hne : Ks ≠ [])
    (hK : ∀ K ∈ Ks, K ≠ [] ∧ '/' ∉ K) :
    ParseS3Path ("s3://".toList ++ C ++ "/".toList ++ "/".toList.intercalate Ks)
      = .ok { BucketName := C, Key := "/".toList.intercalate Ks, FileName := Ks.getLast hne } := by
  have hlast : '/' ∉ Ks.getLast hne := (hK _ (List.getLast_mem hne)).2
  have hfile : (['/'].intercalate Ks).drop
      (strings.LastIndex (['/'].intercalate Ks) "/".toList + 1).toNat = Ks.getLast hne := by
    rcases intercalate_getLast Ks hne with h | ⟨a, h⟩
    · rw [h]; exact fileName_no_slash _ hlast
    · rw [h]; exact fileName_last _ _ hlast
  rw [parse_ok_iff]
  refine ⟨C, ['/'].intercalate Ks, ?_, hCs, ?_⟩
  · simp [slash_toList]
  · rw [hfile]
    rfl

/-- Witness of C1 at `s3://my-bucket/configs/app.yaml`. -/
theorem parse_valid_locator_witness :
    ParseS3Path ("s3://".toList ++ "my-bucket".toList ++ "/".toList
        ++ "/".toList.intercalate ["configs".toList, "app.yaml".toList])
      = .ok { BucketName := "my-bucket".toList,
              Key := "/".toList.intercalate ["configs".toList, "app.yaml".toList],
              FileName := "app.yaml".toList } :=
  parse_valid_locator "my-bucket".toList ["configs".toList, "app.yaml".toList]
    (by decide) (by decide) (by decide) (by decide)

/-- C2: on a string that does not begin with `s3://`, `ParseS3Path` returns
no locator and the error whose message is `Invalid S3 path: ` followed by the
string. -/
theorem parse_without_scheme (s : GoString) (h : ¬ "s3://".toList <+: s) :
    ParseS3Path s = .error ⟨"Invalid S3 path: ".toList ++ s⟩ := by
  have hp : strings.HasPrefix s "s3://".toList = false := by
    cases hq : strings.HasPrefix s "s3://".toList with
    | false => rfl
    | true =>
      obtain ⟨r, hr⟩ := (hasPrefix_iff _ _).1 hq
      exact absurd ⟨r, hr.symm⟩ h
  unfold ParseS3Path
  rw [hp]
  rfl

/-- Witness of C2 at the empty string, at a string shorter than the scheme
and at a scheme in upper case. -/
theorem parse_without_scheme_witness :
    ParseS3Path [] = .error ⟨"Invalid S3 path: ".toList⟩ ∧
    ParseS3Path "s3:".toList = .error ⟨"Invalid S3 path: s3:".toList⟩ ∧
    ParseS3Path "S3://b/k".toList = .error ⟨"Invalid S3 path: S3://b/k".toList⟩ :=
  ⟨parse_without_scheme [] (by decide), parse_without_scheme "s3:".toList (by decide),
    parse_without_scheme "S3://b/k".toList (by decide)⟩

/-- C3: on `s3://` followed by a remainder without `/`, `ParseS3Path`
returns no locator and the error whose message is `Invalid S3 path: ` followed
by the whole string. -/
theorem parse_without_separator (r : GoString) (h : '/' ∉ r) :
    ParseS3Path ("s3://".toList ++ r)
      = .error ⟨"Invalid S3 path: ".toList ++ ("s3://".toList ++ r)⟩ := by
  have hp : strings.HasPrefix ("s3://".toList ++ r) "s3://".toList = true :=
    (hasPrefix_iff _ _).2 ⟨r, rfl⟩
  have hd : ("s3://".toList ++ r).drop 5 = r := by simp [scheme_toList]
  unfold ParseS3Path
  rw [hp, hd, splitN_two_no_slash _ h]
  rfl

/-- Witness of C3 at `s3://my-bucket` and at `s3://`. -/
theorem parse_without_separator_witness :
    ParseS3Path "s3://my-bucket".toList = .error ⟨"Invalid S3 path: s3://my-bucket".toList⟩ ∧
    ParseS3Path "s3://".toList = .error ⟨"Invalid S3 path: s3://".toList⟩ :=
  ⟨parse_without_separator "my-bucket".toList (by decide), parse_without_separator [] (by decide)⟩

/-- C4 as stated fails: `s3:///key` is accepted with an empty BucketName and
`s3://bucket/` with an empty Key. -/
theorem parse_nonempty_fields_fails :
    ¬ ∀ (s : GoString) (loc : S3Edit),
        ParseS3Path s = .ok loc → loc.BucketName ≠ [] ∧ loc.Key ≠ [] := by
  intro h
  have h1 : ParseS3Path "s3:///key".toList = .ok ⟨[], "key".toList, "key".toList⟩ := rfl
  exact (h _ _ h1).1 rfl

/-- C4 amended: on an accepted input the BucketName is non-empty exactly when
the input does not begin with `s3:///`, and the Key is non-empty exactly when
the input is not `s3://`, the BucketName and a final `/`; `s3:///key` and
`s3://bucket/` are accepted, with an empty BucketName and an empty Key. -/
theorem parse_empty_fields (s : GoString) (loc : S3Edit) (h : ParseS3Path s = .ok loc) :
    (loc.BucketName ≠ [] ↔ ¬ "s3:///".toList <+: s) ∧
    (loc.Key ≠ [] ↔ s ≠ "s3://".toList ++ loc.BucketName ++ "/".toList) ∧
    ParseS3Path "s3:///key".toList = .ok ⟨[], "key".toList, "key".toList⟩ ∧
    ParseS3Path "s3://bucket/".toList = .ok ⟨"bucket".toList, [], []⟩ := by
  obtain ⟨bucket, key, rfl, hb, rfl⟩ := (parse_ok_iff _ _).1 h
  refine ⟨?_, ?_, rfl, rfl⟩
  · have e : "s3:///".toList = ['s', '3', ':', '/', '/', '/'] := rfl
    rw [e, scheme_toList]
    constructor
    · rintro hne ⟨t, ht⟩
      cases bucket with
      | nil => exact hne rfl
      | cons x xs =>
        simp only [List.cons_append, List.nil_append, List.cons.injEq, true_and] at ht
        exact hb (by simp [← ht.1])
    · intro hp hnil
      apply hp
      have hnil2 : bucket = [] := hnil
      rw [hnil2]
      exact ⟨key, rfl⟩
  · show key ≠ [] ↔ _
    rw [slash_toList]
    constructor
    · intro hne he
      apply hne
      have := congrArg List.length he
      simpa using this
    · intro hne hk
      apply hne
      rw [hk]

/-- Witness of the amended C4 at `s3://bucket/`. -/
theorem parse_empty_fields_witness :
    ("bucket".toList ≠ [] ↔ ¬ "s3:///".toList <+: "s3://bucket/".toList) ∧
    (([] : GoString) ≠ [] ↔ "s3://bucket/".toList ≠ "s3://".toList ++ "bucket".toList ++ "/".toList) :=
  have h := parse_empty_fields "s3://bucket/".toList ⟨"bucket".toList, [], []⟩ rfl
  ⟨h.1, h.2.1⟩

/-- C5: on an accepted input the FileName is the part of the Key after its
last `/`, the whole Key when the Key has no `/`; so the FileName has no `/`
and the Key is the FileName after a part that is empty or ends in `/`. -/
theorem parse_fileName (s : GoString) (loc : S3Edit) (h : ParseS3Path s = .ok loc) :
    ('/' ∉ loc.Key → loc.FileName = loc.Key) ∧
    (∀ a b, loc.Key = a ++ '/' :: b → '/' ∉ b → loc.FileName = b) ∧
    '/' ∉ loc.FileName ∧
    ∃ front, loc.Key = front ++ loc.FileName ∧ (front = [] ∨ ∃ f, front = f ++ ['/']) := by
  obtain ⟨bucket, key, rfl, _, rfl⟩ := (parse_ok_iff _ _).1 h
  show ('/' ∉ key → key.drop _ = key) ∧ (∀ a b, key = a ++ '/' :: b → '/' ∉ b → key.drop _ = b) ∧
    '/' ∉ key.drop _ ∧ ∃ front, key = front ++ key.drop _ ∧ (front = [] ∨ ∃ f, front = f ++ ['/'])
  refine ⟨fun hk => fileName_no_slash key hk, ?_, ?_, ?_⟩
  · rintro a b rfl hb
    exact fileName_last a b hb
  · by_cases hk : '/' ∈ key
    · obtain ⟨a, b, rfl, hb⟩ := exists_last _ _ hk
      rw [fileName_last a b hb]; exact hb
    · rw [fileName_no_slash key hk]; exact hk
  · by_cases hk : '/' ∈ key
    · obtain ⟨a, b, rfl, hb⟩ := exists_last _ _ hk
      rw [fileName_last a b hb]
      exact ⟨a ++ ['/'], by simp, Or.inr ⟨a, rfl⟩⟩
    · rw [fileName_no_slash key hk]
      exact ⟨[], rfl, Or.inl rfl⟩

/-- Witness of C5 at `s3://my-bucket/configs/app.yaml`. -/
theorem parse_fileName_witness :
    '/' ∉ "app.yaml".toList ∧
    ∃ front, "configs/app.yaml".toList = front ++ "app.yaml".toList ∧
      (front = [] ∨ ∃ f, front = f ++ ['/']) :=
  (parse_fileName "s3://my-bucket/configs/app.yaml".toList
    ⟨"my-bucket".toList, "configs/app.yaml".toList, "app.yaml".toList⟩ rfl).2.2

/-- C10: on an accepted input the BucketName has no `/` and `s3://`, the
BucketName, `/` and the Key make up the input again; so two accepted inputs
with the same BucketName and Key are the same input. -/
theorem parse_lossless (s : GoString) (loc : S3Edit) (h : ParseS3Path s = .ok loc) :
    '/' ∉ loc.BucketName ∧
    "s3://".toList ++ loc.BucketName ++ "/".toList ++ loc.Key = s ∧
    ∀ s2 loc2, ParseS3Path s2 = .ok loc2 →
      loc2.BucketName = loc.BucketName → loc2.Key = loc.Key → s2 = s := by
  obtain ⟨bucket, key, rfl, hb, rfl⟩ := (parse_ok_iff _ _).1 h
  refine ⟨hb, by simp [slash_toList], ?_⟩
  intro s2 loc2 h2 e1 e2
  obtain ⟨bucket2, key2, rfl, _, rfl⟩ := (parse_ok_iff _ _).1 h2
  simp only at e1 e2
  rw [e1, e2]

/-- Witness of C10 at `s3://my-bucket/configs/app.yaml`. -/
theorem parse_lossless_witness :
    '/' ∉ "my-bucket".toList ∧
    "s3://".toList ++ "my-bucket".toList ++ "/".toList ++ "configs/app.yaml".toList
      = "s3://my-bucket/configs/app.yaml".toList :=
  have h := parse_lossless "s3://my-bucket/configs/app.yaml".toList
    ⟨"my-bucket".toList, "configs/app.yaml".toList, "app.yaml".toList⟩ rfl
  ⟨h.1, h.2.1⟩

/-! ## The editor prompt -/

theorem isSpaceIn_nil (rx : Nat) : fmt.isSpaceIn [] rx = false := rfl

theorem isSpaceIn_cons (rng : Nat × Nat) (rest : List (Nat × Nat)) (rx : Nat) :
    fmt.isSpaceIn (rng :: rest) rx
      = if rx < rng.1 then false else if rx ≤ rng.2 then true else fmt.isSpaceIn rest rx := rfl

theorem isSpaceIn_step (lo hi rx : Nat) (b : Bool) :
    (if rx < lo then false else if rx ≤ hi then true else b) = true
      ↔ (lo ≤ rx ∧ rx ≤ hi) ∨ (hi < rx ∧ lo ≤ rx ∧ b = true) := by
  split_ifs with h1 h2
  · constructor
    · intro h; cases h
    · intro h; omega
  · constructor
    · intro _; left; omega
    · intro _; rfl
  · constructor
    · intro h; right; exact ⟨by omega, by omega, h⟩
    · rintro (h | h)
      · omega
      · exact h.2.2

theorem isSpaceIn_table (n : Nat) :
    fmt.isSpaceIn fmt.space n = true ↔
      (0x09 ≤ n ∧ n ≤ 0x0d) ∨ n = 0x20 ∨ n = 0x85 ∨ n = 0xa0 ∨ n = 0x1680 ∨
        (0x2000 ≤ n ∧ n ≤ 0x200a) ∨ (0x2028 ≤ n ∧ n ≤ 0x2029) ∨ n = 0x202f ∨ n = 0x205f ∨
        n = 0x3000 := by
  unfold fmt.space
  simp only [isSpaceIn_cons, isSpaceIn_step, isSpaceIn_nil, Bool.false_eq_true, and_false,
    or_false]
  constructor <;> intro h <;> omega

theorem unicode_isSpace_iff (c : Char) :
    unicode.IsSpace c = true ↔
      (0x09 ≤ c.toNat ∧ c.toNat ≤ 0x0d) ∨ c.toNat = 0x20 ∨ c.toNat = 0x85 ∨ c.toNat = 0xa0 ∨
        c.toNat = 0x1680 ∨ (0x2000 ≤ c.toNat ∧ c.toNat ≤ 0x200a) ∨
        (0x2028 ≤ c.toNat ∧ c.toNat ≤ 0x2029) ∨ c.toNat = 0x202f ∨ c.toNat = 0x205f ∨
        c.toNat = 0x3000 := by
  unfold unicode.IsSpace
  generalize c.toNat = n
  simp only [Bool.or_eq_true, Bool.and_eq_true, decide_eq_true_eq]
  split_ifs <;> simp only [Bool.or_eq_true, Bool.and_eq_true, decide_eq_true_eq] <;> omega

theorem fmt_isSpace_eq (c : Char) : fmt.isSpace c = unicode.IsSpace c := by
  rw [Bool.eq_iff_iff, unicode_isSpace_iff]
  unfold fmt.isSpace
  split_ifs with h
  · simp only [Bool.false_eq_true, false_iff]; omega
  · rw [isSpaceIn_table]

theorem isSpace_newline : fmt.isSpace '\n' = true := by decide

theorem newline_pad (pad rest : List Char)
    (h : ∀ c ∈ pad, fmt.isSpace c = true ∧ c ≠ '\n') :
    fmt.Scanln.newline (pad ++ '\n' :: rest) = rest := by
  induction pad with
  | nil => simp [fmt.Scanln.newline]
  | cons x xs ih =>
    have hx := h x (by simp)
    have hxs : ∀ c ∈ xs, fmt.isSpace c = true ∧ c ≠ '\n' := fun c hc => h c (by simp [hc])
    simp [fmt.Scanln.newline, hx.1, hx.2, ih hxs]

theorem token_word (w s : List Char) (hw : ∀ c ∈ w, fmt.isSpace c = false)
    (hs : ∀ c t, s = c :: t → fmt.isSpace c = true) :
    fmt.Scanln.token (w ++ s) = (w, s) := by
  induction w with
  | nil =>
    cases s with
    | nil => rfl
    | cons c t => simp [fmt.Scanln.token, hs c t rfl]
  | cons x xs ih =>
    have hx := hw x (by simp)
    have hxs : ∀ c ∈ xs, fmt.isSpace c = false := fun c hc => hw c (by simp [hc])
    simp [fmt.Scanln.token, hx, ih hxs]

theorem oneWord_iff (entry : GoString) :
    oneWord entry = true ↔
      (∀ c ∈ entry, c ≠ '\n') ∧ ∀ c ∈ strings.TrimSpace entry, unicode.IsSpace c = false := by
  simp [oneWord, List.all_eq_true]

theorem trimSpace_space_cons (c : Char) (e : GoString) (hc : unicode.IsSpace c = true) :
    strings.TrimSpace (c :: e) = strings.TrimSpace e := by
  simp [strings.TrimSpace, List.dropWhile, hc]

theorem trimSpace_word (w : GoString) (hw : ∀ c ∈ w, unicode.IsSpace c = false) :
    strings.TrimSpace w = w := by
  have h1 : w.dropWhile unicode.IsSpace = w := by
    cases w with
    | nil => rfl
    | cons x xs => simp [List.dropWhile, hw x (by simp)]
  have h2 : w.reverse.dropWhile unicode.IsSpace = w.reverse := by
    cases hr : w.reverse with
    | nil => rfl
    | cons x xs =>
      have hx : x ∈ w := by
        have : x ∈ w.reverse := by rw [hr]; simp
        simpa using this
      simp [List.dropWhile, hw x hx]
  rw [strings.TrimSpace, h1, h2, List.reverse_reverse]

/-- What `Scanln` does with a line that holds one word: it stores the word
and leaves what follows the line. -/
theorem scanln_line (entry : GoString) (rest : List Char) (h : oneWord entry = true) :
    fmt.Scanln (entry ++ '\n' :: rest) = (strings.TrimSpace entry, rest) := by
  induction entry with
  | nil => simp [fmt.Scanln, strings.TrimSpace]
  | cons c e ih =>
    obtain ⟨hnl, hword⟩ := (oneWord_iff _).1 h
    have hc : c ≠ '\n' := hnl c (by simp)
    by_cases hsp : unicode.IsSpace c = true
    · have he : oneWord e = true := by
        rw [oneWord_iff]
        refine ⟨fun x hx => hnl x (by simp [hx]), ?_⟩
        rw [← trimSpace_space_cons c e hsp]
        exact hword
      rw [trimSpace_space_cons c e hsp, ← ih he]
      simp [fmt.Scanln, hc, fmt_isSpace_eq, hsp]
    · have hsp2 : unicode.IsSpace c = false := by simpa using hsp
      have htrim : strings.TrimSpace (c :: e)
          = ((c :: e).reverse.dropWhile unicode.IsSpace).reverse := by
        simp [strings.TrimSpace, List.dropWhile, hsp2]
      have hsplit : c :: e = ((c :: e).reverse.dropWhile unicode.IsSpace).reverse
          ++ ((c :: e).reverse.takeWhile unicode.IsSpace).reverse := by
        rw [← List.reverse_append, List.takeWhile_append_dropWhile, List.reverse_reverse]
      have hpad : ∀ x ∈ ((c :: e).reverse.takeWhile unicode.IsSpace).reverse,
          fmt.isSpace x = true ∧ x ≠ '\n' := by
        intro x hx
        rw [List.mem_reverse] at hx
        refine ⟨by rw [fmt_isSpace_eq]; exact List.mem_takeWhile_imp hx, hnl x ?_⟩
        have := (List.takeWhile_sublist unicode.IsSpace).subset hx
        rw [List.mem_reverse] at this
        exact this
      rw [htrim] at hword ⊢
      have htok : fmt.Scanln.token (c :: e ++ '\n' :: rest)
          = (((c :: e).reverse.dropWhile unicode.IsSpace).reverse,
              ((c :: e).reverse.takeWhile unicode.IsSpace).reverse ++ '\n' :: rest) := by
        conv_lhs => rw [hsplit, List.append_assoc]
        apply token_word
        · intro x hx; rw [fmt_isSpace_eq]; exact hword x hx
        · intro x t hxt
          cases hp : ((c :: e).reverse.takeWhile unicode.IsSpace).reverse with
          | nil =>
            rw [hp] at hxt
            simp only [List.nil_append, List.cons.injEq] at hxt
            rw [← hxt.1]; exact isSpace_newline
          | cons y ys =>
            rw [hp] at hxt
            simp only [List.cons_append, List.cons.injEq] at hxt
            rw [← hxt.1]
            exact (hpad y (by rw [hp]; simp)).1
      have hfc : fmt.isSpace c = false := by rw [fmt_isSpace_eq]; exact hsp2
      have hstep : fmt.Scanln (c :: e ++ '\n' :: rest)
          = ((fmt.Scanln.token (c :: e ++ '\n' :: rest)).1,
              fmt.Scanln.newline (fmt.Scanln.token (c :: e ++ '\n' :: rest)).2) := by
        show fmt.Scanln (c :: (e ++ '\n' :: rest)) = _
        rw [fmt.Scanln]
        simp [hc, hfc]
      rw [hstep, htok]
      simp only [newline_pad _ rest hpad]

theorem any_allowed_iff (t : GoString) (allowedValues : List GoString) :
    allowedValues.any (fun allowedValue => decide (t = allowedValue)) = true
      ↔ t ∈ allowedValues := by
  simp [List.any_eq_true]

theorem loop_accepts (promptText : GoString) (allowedValues : List GoString)
    (fuel : Nat) (stdin : List Char)
    (h : strings.TrimSpace (fmt.Scanln stdin).1 ∈ allowedValues) :
    getUserInput.loop promptText allowedValues (fuel + 1) stdin
      = some ⟨strings.TrimSpace (fmt.Scanln stdin).1, (fmt.Scanln stdin).2, [promptText]⟩ := by
  rw [getUserInput.loop]
  simp only [(any_allowed_iff _ _).2 h, if_true]

theorem loop_rejects (promptText : GoString) (allowedValues : List GoString)
    (fuel : Nat) (stdin : List Char)
    (h : strings.TrimSpace (fmt.Scanln stdin).1 ∉ allowedValues) :
    getUserInput.loop promptText allowedValues (fuel + 1) stdin
      = (getUserInput.loop promptText allowedValues fuel (fmt.Scanln stdin).2).map fun r =>
          { r with stdout := promptText :: invalidInput allowedValues :: r.stdout } := by
  have hf : allowedValues.any (fun allowedValue =>
      decide (strings.TrimSpace (fmt.Scanln stdin).1 = allowedValue)) = false := by
    cases hq : allowedValues.any (fun allowedValue =>
        decide (strings.TrimSpace (fmt.Scanln stdin).1 = allowedValue)) with
    | false => rfl
    | true => exact absurd ((any_allowed_iff _ _).1 hq) h
  rw [getUserInput.loop]
  simp only [hf, Bool.false_eq_true, if_false]

theorem loop_mem (promptText : GoString) (allowedValues : List GoString)
    (fuel : Nat) (stdin : List Char) (r : Prompted)
    (h : getUserInput.loop promptText allowedValues fuel stdin = some r) :
    r.value ∈ allowedValues := by
  induction fuel generalizing stdin r with
  | zero => simp [getUserInput.loop] at h
  | succ fuel ih =>
    by_cases ha : strings.TrimSpace (fmt.Scanln stdin).1 ∈ allowedValues
    · rw [loop_accepts _ _ _ _ ha] at h
      simp only [Option.some.injEq] at h
      rw [← h]
      exact ha
    · rw [loop_rejects _ _ _ _ ha] at h
      cases hr : getUserInput.loop promptText allowedValues fuel (fmt.Scanln stdin).2 with
      | none => simp [hr] at h
      | some r2 =>
        simp only [hr, Option.map_some', Option.some.injEq] at h
        rw [← h]
        exact ih _ r2 hr

theorem loop_first (promptText : GoString) (allowedValues : List GoString)
    (earlier : List GoString) (entry : GoString) (later : List Char)
    (hwords : ∀ x ∈ earlier, oneWord x = true) (hword : oneWord entry = true)
    (hearlier : ∀ x ∈ earlier, strings.TrimSpace x ∉ allowedValues)
    (hentry : strings.TrimSpace entry ∈ allowedValues)
    (fuel : Nat) (hfuel : earlier.length + 1 ≤ fuel) :
    getUserInput.loop promptText allowedValues fuel (typed earlier ++ (entry ++ '\n' :: later))
      = some ⟨strings.TrimSpace entry, later,
          promptedAfter promptText allowedValues earlier.length⟩ := by
  have hidem : ∀ e : GoString, oneWord e = true →
      strings.TrimSpace (strings.TrimSpace e) = strings.TrimSpace e :=
    fun e he => trimSpace_word _ ((oneWord_iff e).1 he).2
  induction earlier generalizing fuel with
  | nil =>
    obtain ⟨k, rfl⟩ : ∃ k, fuel = k + 1 := ⟨fuel - 1, by simp at hfuel; omega⟩
    have hs := scanln_line entry later hword
    have ha : strings.TrimSpace (fmt.Scanln (typed [] ++ (entry ++ '\n' :: later))).1
        ∈ allowedValues := by
      simp only [typed, List.nil_append, hs, hidem entry hword]; exact hentry
    rw [loop_accepts _ _ _ _ ha]
    simp only [typed, List.nil_append, hs, hidem entry hword, promptedAfter, List.length_nil]
  | cons x xs ih =>
    obtain ⟨k, rfl⟩ : ∃ k, fuel = k + 1 := ⟨fuel - 1, by simp at hfuel; omega⟩
    have hxw : oneWord x = true := hwords x (by simp)
    have hx : strings.TrimSpace x ∉ allowedValues := hearlier x (by simp)
    have hs : fmt.Scanln (typed (x :: xs) ++ (entry ++ '\n' :: later))
        = (strings.TrimSpace x, typed xs ++ (entry ++ '\n' :: later)) := by
      have := scanln_line x (typed xs ++ (entry ++ '\n' :: later)) hxw
      simpa [typed] using this
    have hr : strings.TrimSpace (fmt.Scanln (typed (x :: xs) ++ (entry ++ '\n' :: later))).1
        ∉ allowedValues := by
      rw [hs]; simp only [hidem x hxw]; exact hx
    rw [loop_rejects _ _ _ _ hr, hs]
    simp only
    rw [ih (fun y hy => hwords y (by simp [hy])) (fun y hy => hearlier y (by simp [hy])) k
      (by simp at hfuel; omega)]
    rfl

theorem typed_length (entries : List GoString) : entries.length ≤ (typed entries).length := by
  induction entries with
  | nil => simp [typed]
  | cons x xs ih => simp [typed]; omega

/-! ### The number of iterations `getUserInput` allows is enough -/

theorem newline_length (s : List Char) : (fmt.Scanln.newline s).length ≤ s.length := by
  induction s with
  | nil => simp [fmt.Scanln.newline]
  | cons x xs ih =>
    rw [fmt.Scanln.newline]
    split_ifs
    · simp
    · simp
    · simp only [List.length_cons]; omega

theorem token_length (s : List Char) : (fmt.Scanln.token s).2.length ≤ s.length := by
  induction s with
  | nil => simp [fmt.Scanln.token]
  | cons x xs ih =>
    rw [fmt.Scanln.token]
    split_ifs
    · simp
    · simp only [List.length_cons]; omega

theorem token_length_word (x : Char) (xs : List Char) (h : fmt.isSpace x = false) :
    (fmt.Scanln.token (x :: xs)).2.length ≤ xs.length := by
  rw [fmt.Scanln.token]
  simp only [h, Bool.false_eq_true, if_false]
  exact token_length xs

theorem scanln_length (x : Char) (xs : List Char) :
    (fmt.Scanln (x :: xs)).2.length ≤ xs.length := by
  induction xs generalizing x with
  | nil =>
    rw [fmt.Scanln]
    split_ifs with h1 h2
    · simp
    · simp [fmt.Scanln]
    · have h3 : fmt.isSpace x = false := by simpa using h2
      exact (newline_length _).trans (token_length_word x [] h3)
  | cons y ys ih =>
    rw [fmt.Scanln]
    split_ifs with h1 h2
    · simp
    · exact (ih y).trans (by simp)
    · have h3 : fmt.isSpace x = false := by simpa using h2
      exact (newline_length _).trans (token_length_word x (y :: ys) h3)

theorem loop_end_of_input (promptText : GoString) (allowedValues : List GoString)
    (fuel : Nat) :
    getUserInput.loop promptText allowedValues (fuel + 1) []
      = getUserInput.loop promptText allowedValues 1 [] := by
  induction fuel with
  | zero => rfl
  | succ k ih =>
    by_cases ha : strings.TrimSpace (fmt.Scanln []).1 ∈ allowedValues
    · rw [loop_accepts _ _ _ _ ha, loop_accepts _ _ _ _ ha]
    · rw [loop_rejects _ _ (k + 1) _ ha, loop_rejects _ _ 0 _ ha]
      have h0 : (fmt.Scanln []).2 = [] := rfl
      rw [h0, ih, loop_rejects _ _ 0 _ ha, h0]
      simp [getUserInput.loop]

theorem loop_enough_aux (promptText : GoString) (allowedValues : List GoString) (n : Nat) :
    ∀ (stdin : List Char) (fuel : Nat), stdin.length = n → stdin.length + 1 ≤ fuel →
      getUserInput.loop promptText allowedValues fuel stdin
        = getUserInput.loop promptText allowedValues (stdin.length + 1) stdin := by
  induction n using Nat.strong_induction_on with
  | _ n ih =>
    intro stdin fuel hn h
    subst hn
    obtain ⟨k, rfl⟩ : ∃ k, fuel = k + 1 := ⟨fuel - 1, by omega⟩
    cases stdin with
    | nil => exact loop_end_of_input _ _ k
    | cons x xs =>
      have hlen := scanln_length x xs
      by_cases ha : strings.TrimSpace (fmt.Scanln (x :: xs)).1 ∈ allowedValues
      · rw [loop_accepts _ _ _ _ ha]
        show _ = getUserInput.loop promptText allowedValues (xs.length + 1 + 1) (x :: xs)
        rw [loop_accepts _ _ _ _ ha]
      · rw [loop_rejects _ _ _ _ ha]
        show _ = getUserInput.loop promptText allowedValues (xs.length + 1 + 1) (x :: xs)
        rw [loop_rejects _ _ _ _ ha]
        have h1 := ih (fmt.Scanln (x :: xs)).2.length (by simp; omega) (fmt.Scanln (x :: xs)).2
          k rfl (by simp at h; omega)
        have h2 := ih (fmt.Scanln (x :: xs)).2.length (by simp; omega) (fmt.Scanln (x :: xs)).2
          (xs.length + 1) rfl (by omega)
        rw [h1, h2]

/-- More iterations than `getUserInput` allows change nothing: its `none`
is a loop that never returns. -/
theorem loop_enough (promptText : GoString) (allowedValues : List GoString)
    (stdin : List Char) (fuel : Nat) (h : stdin.length + 1 ≤ fuel) :
    getUserInput.loop promptText allowedValues fuel stdin
      = getUserInput promptText allowedValues stdin :=
  loop_enough_aux promptText allowedValues stdin.length stdin fuel rfl h

/-- C6: when one word per line is typed (spaces around a word allowed), the
lines `earlier`, then `entry`, then the characters `later`, and no entry of
`earlier` trims to an allowed value while `entry` does, `getUserInput`
returns the trimmed `entry`, leaves `later` unread and has shown the prompt
and the rejection once per entry of `earlier` before the last prompt; whatever
is typed, a returned value is an allowed value.  With the allowed values of
`Run`, each of `vim`, `vi`, `nano` is accepted as the first entry and `emacs`
is rejected and asked again. -/
theorem getUserInput_first_allowed (promptText : GoString) (allowedValues : List GoString)
    (earlier : List GoString) (entry : GoString) (later : List Char)
    (hwords : ∀ x ∈ earlier, oneWord x = true) (hword : oneWord entry = true)
    (hearlier : ∀ x ∈ earlier, strings.TrimSpace x ∉ allowedValues)
    (hentry : strings.TrimSpace entry ∈ allowedValues) :
    getUserInput promptText allowedValues (typed earlier ++ (entry ++ '\n' :: later))
        = some ⟨strings.TrimSpace entry, later,
            promptedAfter promptText allowedValues earlier.length⟩ ∧
    (∀ stdin r, getUserInput promptText allowedValues stdin = some r →
        r.value ∈ allowedValues) ∧
    getUserInput editorPrompt editors "vim\n".toList
        = some ⟨"vim".toList, [], [editorPrompt]⟩ ∧
    getUserInput editorPrompt editors "vi\n".toList
        = some ⟨"vi".toList, [], [editorPrompt]⟩ ∧
    getUserInput editorPrompt editors "nano\n".toList
        = some ⟨"nano".toList, [], [editorPrompt]⟩ ∧
    getUserInput editorPrompt editors "emacs\nvi\n".toList
        = some ⟨"vi".toList, [],
            [editorPrompt, "Invalid input. Please enter one of [vi vim nano].\n".toList,
              editorPrompt]⟩ ∧
    getUserInput editorPrompt editors "emacs\n".toList = none := by
  refine ⟨?_, fun stdin r h => loop_mem _ _ _ stdin r h, by decide, by decide, by decide,
    by decide, by decide⟩
  apply loop_first _ _ _ _ _ hwords hword hearlier hentry
  have := typed_length earlier
  simp only [List.length_append, List.length_cons]
  omega

/-- Witness of C6: the lines ` emacs`, `nano ` and `vim` typed in this
order. -/
theorem getUserInput_first_allowed_witness :
    getUserInput editorPrompt editors " emacs\nnano \nvim\n".toList
      = some ⟨"nano".toList, "vim\n".toList, promptedAfter editorPrompt editors 1⟩ :=
  (getUserInput_first_allowed editorPrompt editors [" emacs".toList] "nano ".toList
    "vim\n".toList (by decide) (by decide) (by decide) (by decide)).1

/-- What `Scanln` makes of lines that hold more than one word: of `vi m` the
code takes `vi` and returns it at once; of `emacs vi` it takes `emacs`, reads
the `v` and on the next call takes `i`, so `vi` is never returned. -/
theorem getUserInput_two_words :
    getUserInput editorPrompt editors "vi m\nnano\n".toList
        = some ⟨"vi".toList, "\nnano\n".toList, [editorPrompt]⟩ ∧
    fmt.Scanln "emacs vi\n".toList = ("emacs".toList, "i\n".toList) ∧
    getUserInput editorPrompt editors "emacs vi\n".toList = none := by
  refine ⟨by decide, by decide, by decide⟩

theorem prompted_texts (fuel : Nat) (stdin : List Char) (r : Prompted)
    (h : getUserInput.loop editorPrompt editors fuel stdin = some r) :
    ∀ t ∈ r.stdout, t = editorPrompt ∨ t = invalidInput editors := by
  induction fuel generalizing stdin r with
  | zero => simp [getUserInput.loop] at h
  | succ fuel ih =>
    by_cases ha : strings.TrimSpace (fmt.Scanln stdin).1 ∈ editors
    · rw [loop_accepts _ _ _ _ ha] at h
      simp only [Option.some.injEq] at h
      subst h
      simp
    · rw [loop_rejects _ _ _ _ ha] at h
      cases hr : getUserInput.loop editorPrompt editors fuel (fmt.Scanln stdin).2 with
      | none => simp [hr] at h
      | some r2 =>
        simp only [hr, Option.map_some', Option.some.injEq] at h
        subst h
        intro t ht
        simp only [List.mem_cons] at ht
        rcases ht with h1 | h1 | h1
        · exact Or.inl h1
        · exact Or.inr h1
        · exact ih _ r2 hr t h1

theorem saved_not_prompted (stdin : List Char) (r : Prompted)
    (h : getUserInput editorPrompt editors stdin = some r) :
    savedMessage ∉ r.stdout := by
  intro hm
  rcases prompted_texts (stdin.length + 1) stdin r h _ hm with h1 | h1
  · exact absurd h1 (by decide)
  · exact absurd h1 (by decide)

/-- The ways `Run.edit` returns. -/
theorem edit_cases (env : Env) (s : S3Edit) (w : World) (name : GoString) (fc : Bytes)
    (o : Outcome) (h : Run.edit env s w name fc = some o) :
    (∃ e, o.err = some e ∧ o.world.store = w.store ∧
      o.trace = [.Write name fc (some e)]) ∨
    (∃ e, o.err = some e ∧ o.world.store = w.store ∧
      o.trace = [.Write name fc none, .Close name (some e)]) ∨
    (∃ asked e, getUserInput editorPrompt editors w.stdin = some asked ∧
      o.err = some e ∧ o.world.store = w.store ∧
      o.trace = [.Write name fc none, .Close name none] ++ asked.stdout.map Event.Print
        ++ [.Command asked.value name (some e)]) ∨
    (∃ asked e, getUserInput editorPrompt editors w.stdin = some asked ∧
      o.err = some e ∧ o.world.store = w.store ∧
      o.trace = [.Write name fc none, .Close name none] ++ asked.stdout.map Event.Print
        ++ [.Command asked.value name none, .ReadFile name [] (some e)]) ∨
    (∃ asked updated e, getUserInput editorPrompt editors w.stdin = some asked ∧
      o.err = some e ∧
      o.trace = [.Write name fc none, .Close name none] ++ asked.stdout.map Event.Print
        ++ [.Command asked.value name none, .ReadFile name updated none,
            .PutObject ⟨s.BucketName, s.Key, updated, env.DetectContentType updated⟩ (some e)]) ∨
    (∃ asked updated, getUserInput editorPrompt editors w.stdin = some asked ∧
      (env.Command asked.value name (fsWrite w.fs name fc)).1 name = some updated ∧
      o.err = none ∧
      o.world.fs = (env.Command asked.value name (fsWrite w.fs name fc)).1 ∧
      o.world.store
        = s3PutObject w.store ⟨s.BucketName, s.Key, updated, env.DetectContentType updated⟩ ∧
      o.trace = [.Write name fc none, .Close name none] ++ asked.stdout.map Event.Print
        ++ [.Command asked.value name none, .ReadFile name updated none,
            .PutObject ⟨s.BucketName, s.Key, updated, env.DetectContentType updated⟩ none,
            .Print savedMessage]) := by
  unfold Run.edit at h
  split at h
  · simp only [Option.some.injEq] at h
    subst h
    exact Or.inl ⟨_, rfl, rfl, rfl⟩
  · dsimp only at h
    split at h
    · simp only [Option.some.injEq] at h
      subst h
      exact Or.inr (Or.inl ⟨_, rfl, rfl, rfl⟩)
    · split at h
      · simp at h
      · rename_i asked hasked
        split at h
        · rename_i e he
          simp only [Option.some.injEq] at h
          subst h
          refine Or.inr (Or.inr (Or.inl ⟨asked, e, hasked, rfl, rfl, ?_⟩))
          simp only [he]
        · rename_i he
          split at h
          · rename_i e hr
            simp only [Option.some.injEq] at h
            subst h
            refine Or.inr (Or.inr (Or.inr (Or.inl ⟨asked, e, hasked, rfl, rfl, ?_⟩)))
            simp [he]
          · rename_i updated hr
            have hup : (env.Command asked.value name (fsWrite w.fs name fc)).1 name
                = some updated := by
              unfold osReadFile at hr
              split at hr
              · simp at hr
              · split at hr
                · simp at hr
                · rename_i b hb
                  simp only [Except.ok.injEq] at hr
                  rw [← hr]; exact hb
            split at h
            · simp only [Option.some.injEq] at h
              subst h
              refine Or.inr (Or.inr (Or.inr (Or.inr (Or.inl
                ⟨asked, updated, _, hasked, rfl, ?_⟩))))
              simp [he]
            · simp only [Option.some.injEq] at h
              subst h
              refine Or.inr (Or.inr (Or.inr (Or.inr (Or.inr
                ⟨asked, updated, hasked, hup, rfl, rfl, rfl, ?_⟩))))
              simp [he]

theorem edit_no_createTemp (env : Env) (s : S3Edit) (w : World) (name : GoString) (fc : Bytes)
    (o : Outcome) (h : Run.edit env s w name fc = some o) (n : Option GoString)
    (err : Option GoError) : Event.CreateTemp n err ∉ o.trace := by
  rcases edit_cases env s w name fc o h with ⟨e, -, -, ht⟩ | ⟨e, -, -, ht⟩ |
    ⟨asked, e, -, -, -, ht⟩ | ⟨asked, e, -, -, -, ht⟩ | ⟨asked, updated, e, -, -, ht⟩ |
    ⟨asked, updated, -, -, -, -, -, ht⟩ <;>
  · rw [ht]; simp

theorem edit_failure (env : Env) (s : S3Edit) (w : World) (name : GoString) (fc : Bytes)
    (o : Outcome) (h : Run.edit env s w name fc = some o) (ev : Event) (hev : ev ∈ o.trace)
    (e : GoError) (hf : ev.failedBeforeUpload = some e) :
    o.err = some e ∧ (∃ front, o.trace = front ++ [ev]) ∧
      (∀ x ∈ o.trace, x.isPutObject = false) ∧ Event.Print savedMessage ∉ o.trace ∧
      o.world.store = w.store := by
  rcases edit_cases env s w name fc o h with ⟨e1, he, hs, ht⟩ | ⟨e1, he, hs, ht⟩ |
    ⟨asked, e1, ha, he, hs, ht⟩ | ⟨asked, e1, ha, he, hs, ht⟩ | ⟨asked, updated, e1, ha, he, ht⟩ |
    ⟨asked, updated, ha, hu, he, hfs, hs, ht⟩
  · rw [ht] at hev ⊢
    simp only [List.mem_singleton] at hev
    subst hev
    simp only [Event.failedBeforeUpload, Option.some.injEq] at hf
    subst hf
    exact ⟨he, ⟨[], rfl⟩, by simp [Event.isPutObject], by simp, hs⟩
  · rw [ht] at hev ⊢
    simp only [List.mem_cons, List.mem_singleton, List.not_mem_nil, or_false] at hev
    rcases hev with rfl | rfl
    · simp [Event.failedBeforeUpload] at hf
    · simp only [Event.failedBeforeUpload, Option.some.injEq] at hf
      subst hf
      exact ⟨he, ⟨[_], rfl⟩, by simp [Event.isPutObject], by simp, hs⟩
  · have hsaved := saved_not_prompted _ _ ha
    rw [ht] at hev ⊢
    simp only [List.mem_append, List.mem_cons, List.mem_singleton, List.not_mem_nil, or_false,
      List.mem_map] at hev
    rcases hev with ((rfl | rfl) | ⟨t, -, rfl⟩) | rfl
    · simp [Event.failedBeforeUpload] at hf
    · simp [Event.failedBeforeUpload] at hf
    · simp [Event.failedBeforeUpload] at hf
    · simp only [Event.failedBeforeUpload, Option.some.injEq] at hf
      subst hf
      refine ⟨he, ⟨_, rfl⟩, ?_, ?_, hs⟩
      · intro x hx
        simp only [List.mem_append, List.mem_cons, List.mem_singleton, List.not_mem_nil,
          or_false, List.mem_map] at hx
        rcases hx with ((rfl | rfl) | ⟨t, -, rfl⟩) | rfl <;> rfl
      · simpa using hsaved
  · have hsaved := saved_not_prompted _ _ ha
    rw [ht] at hev ⊢
    simp only [List.mem_append, List.mem_cons, List.mem_singleton, List.not_mem_nil, or_false,
      List.mem_map] at hev
    rcases hev with ((rfl | rfl) | ⟨t, -, rfl⟩) | rfl | rfl
    · simp [Event.failedBeforeUpload] at hf
    · simp [Event.failedBeforeUpload] at hf
    · simp [Event.failedBeforeUpload] at hf
    · simp [Event.failedBeforeUpload] at hf
    · simp only [Event.failedBeforeUpload, Option.some.injEq] at hf
      subst hf
      refine ⟨he, ⟨[.Write name fc none, .Close name none] ++ asked.stdout.map Event.Print
        ++ [.Command asked.value name none], by simp⟩, ?_, ?_, hs⟩
      · intro x hx
        simp only [List.mem_append, List.mem_cons, List.mem_singleton, List.not_mem_nil,
          or_false, List.mem_map] at hx
        rcases hx with ((rfl | rfl) | ⟨t, -, rfl⟩) | rfl | rfl <;> rfl
      · simpa using hsaved
  · rw [ht] at hev
    simp only [List.mem_append, List.mem_cons, List.mem_singleton, List.not_mem_nil, or_false,
      List.mem_map] at hev
    rcases hev with ((rfl | rfl) | ⟨t, -, rfl⟩) | rfl | rfl | rfl <;>
      simp [Event.failedBeforeUpload] at hf
  · rw [ht] at hev
    simp only [List.mem_append, List.mem_cons, List.mem_singleton, List.not_mem_nil, or_false,
      List.mem_map] at hev
    rcases hev with ((rfl | rfl) | ⟨t, -, rfl⟩) | rfl | rfl | rfl | rfl <;>
      simp [Event.failedBeforeUpload] at hf

theorem edit_success (env : Env) (s : S3Edit) (w : World) (name : GoString) (fc : Bytes)
    (o : Outcome) (h : Run.edit env s w name fc = some o) (hok : o.err = none) :
    ∃ asked updated, getUserInput editorPrompt editors w.stdin = some asked ∧
      (env.Command asked.value name (fsWrite w.fs name fc)).1 name = some updated ∧
      o.world.fs = (env.Command asked.value name (fsWrite w.fs name fc)).1 ∧
      o.world.store
        = s3PutObject w.store ⟨s.BucketName, s.Key, updated, env.DetectContentType updated⟩ ∧
      o.trace = [.Write name fc none, .Close name none] ++ asked.stdout.map Event.Print
        ++ [.Command asked.value name none, .ReadFile name updated none,
            .PutObject ⟨s.BucketName, s.Key, updated, env.DetectContentType updated⟩ none,
            .Print savedMessage] := by
  rcases edit_cases env s w name fc o h with ⟨e1, he, -, -⟩ | ⟨e1, he, -, -⟩ |
    ⟨asked, e1, -, he, -, -⟩ | ⟨asked, e1, -, he, -, -⟩ | ⟨asked, updated, e1, -, he, -⟩ |
    ⟨asked, updated, ha, hu, he, hfs, hs, ht⟩
  · rw [he] at hok; cases hok
  · rw [he] at hok; cases hok
  · rw [he] at hok; cases hok
  · rw [he] at hok; cases hok
  · rw [he] at hok; cases hok
  · exact ⟨asked, updated, ha, hu, hfs, hs, ht⟩

theorem createTemp_ok (env : Env) (fs : Files) (name : GoString) (fs1 : Files)
    (h : osCreateTemp env fs = .ok (name, fs1)) :
    name = env.TempDir ++ "/".toList ++ "S3Edit-".toList ++ env.Random ∧
      fs name = none ∧ fs1 = fsWrite fs name [] := by
  unfold osCreateTemp at h
  split at h
  · simp at h
  · dsimp only at h
    split at h
    · simp at h
    · rename_i hn
      simp only [Except.ok.injEq, Prod.mk.injEq] at h
      obtain ⟨h1, h2⟩ := h
      subst h1
      exact ⟨rfl, hn, h2.symm⟩

theorem osRemove_gone (fs : Files) (name : GoString) : (osRemove fs name).1 name = none := by
  unfold osRemove
  split
  · assumption
  · simp

theorem osRemove_missing (fs : Files) (name : GoString) (h : fs name = none) :
    osRemove fs name = (fs, some (notExist "remove".toList name)) := by
  unfold osRemove
  simp [h]

theorem osRemove_present (fs : Files) (name : GoString) (b : Bytes) (h : fs name = some b) :
    (osRemove fs name).2 = none := by
  unfold osRemove
  simp [h]

/-- The ways `Run.fetched` returns. -/
theorem fetched_cases (env : Env) (s : S3Edit) (w : World) (body : Bytes) (o : Outcome)
    (h : Run.fetched env s w body = some o) :
    (∃ e, o.err = some e ∧ o.world.store = w.store ∧ o.trace = [.Copy (some e)]) ∨
    (∃ e, o.err = some e ∧ o.world.store = w.store ∧
      o.trace = [.Copy none, .CreateTemp none (some e)]) ∨
    (∃ name o1, osCreateTemp env w.fs = .ok (name, fsWrite w.fs name []) ∧
      Run.edit env s { w with fs := fsWrite w.fs name [] } name body = some o1 ∧
      o.err = o1.err ∧ o.world.store = o1.world.store ∧
      o.world.fs = (osRemove o1.world.fs name).1 ∧
      o.trace = [.Copy none, .CreateTemp (some name) none] ++ o1.trace
        ++ [.Remove name (osRemove o1.world.fs name).2]) := by
  unfold Run.fetched at h
  split at h
  · simp only [Option.some.injEq] at h
    subst h
    exact Or.inl ⟨_, rfl, rfl, rfl⟩
  · split at h
    · simp only [Option.some.injEq] at h
      subst h
      exact Or.inr (Or.inl ⟨_, rfl, rfl, rfl⟩)
    · rename_i name fs1 hct
      obtain ⟨-, -, hfs⟩ := createTemp_ok _ _ _ _ hct
      subst hfs
      cases hed : Run.edit env s { w with fs := fsWrite w.fs name [] } name body with
      | none => simp [hed] at h
      | some o1 =>
        simp only [hed, Option.map_some', Option.some.injEq] at h
        subst h
        exact Or.inr (Or.inr ⟨name, o1, hct, hed, rfl, rfl, rfl, rfl⟩)

/-- The ways `Run` returns. -/
theorem run_cases (env : Env) (s : S3Edit) (w : World) (out : Outcome)
    (h : Run env s w = some out) :
    (∃ e, out.err = some e ∧ out.world.store = w.store ∧ out.trace = [.NewSession (some e)]) ∨
    (∃ e, out.err = some e ∧ out.world.store = w.store ∧
      out.trace = [.NewSession none, .GetObject ⟨s.BucketName, s.Key⟩ (some e)]) ∨
    (∃ body o1, s3GetObject env w.store ⟨s.BucketName, s.Key⟩ = .ok body ∧
      Run.fetched env s w body = some o1 ∧
      out.err = o1.err ∧ out.world = o1.world ∧
      out.trace = [.NewSession none, .GetObject ⟨s.BucketName, s.Key⟩ none] ++ o1.trace
        ++ [.BodyClose]) := by
  unfold Run at h
  split at h
  · simp only [Option.some.injEq] at h
    subst h
    exact Or.inl ⟨_, rfl, rfl, rfl⟩
  · dsimp only at h
    split at h
    · simp only [Option.some.injEq] at h
      subst h
      exact Or.inr (Or.inl ⟨_, rfl, rfl, rfl⟩)
    · rename_i body hget
      cases hfe : Run.fetched env s w body with
      | none => simp [hfe] at h
      | some o1 =>
        simp only [hfe, Option.map_some', Option.some.injEq] at h
        subst h
        exact Or.inr (Or.inr ⟨body, o1, hget, hfe, rfl, rfl, rfl⟩)

theorem fetched_failure (env : Env) (s : S3Edit) (w : World) (body : Bytes) (o : Outcome)
    (h : Run.fetched env s w body = some o) (ev : Event) (hev : ev ∈ o.trace)
    (e : GoError) (hf : ev.failedBeforeUpload = some e) :
    o.err = some e ∧
      (∃ front later, o.trace = front ++ ev :: later ∧ ∀ x ∈ later, x.isDeferred = true) ∧
      (∀ x ∈ o.trace, x.isPutObject = false) ∧ Event.Print savedMessage ∉ o.trace ∧
      o.world.store = w.store := by
  rcases fetched_cases env s w body o h with ⟨e1, he, hs, ht⟩ | ⟨e1, he, hs, ht⟩ |
    ⟨name, o1, -, hed, he, hs, -, ht⟩
  · rw [ht] at hev ⊢
    simp only [List.mem_singleton] at hev
    subst hev
    simp only [Event.failedBeforeUpload, Option.some.injEq] at hf
    subst hf
    exact ⟨he, ⟨[], [], rfl, by simp⟩, by simp [Event.isPutObject], by simp, hs⟩
  · rw [ht] at hev ⊢
    simp only [List.mem_cons, List.mem_singleton, List.not_mem_nil, or_false] at hev
    rcases hev with rfl | rfl
    · simp [Event.failedBeforeUpload] at hf
    · simp only [Event.failedBeforeUpload, Option.some.injEq] at hf
      subst hf
      exact ⟨he, ⟨[_], [], rfl, by simp⟩, by simp [Event.isPutObject], by simp, hs⟩
  · rw [ht] at hev ⊢
    simp only [List.mem_append, List.mem_cons, List.mem_singleton, List.not_mem_nil,
      or_false] at hev
    rcases hev with ((rfl | rfl) | hev) | rfl
    · simp [Event.failedBeforeUpload] at hf
    · simp [Event.failedBeforeUpload] at hf
    · obtain ⟨h1, ⟨front, h2⟩, h3, h4, h5⟩ := edit_failure env s _ name body o1 hed ev hev e hf
      refine ⟨he.trans h1, ⟨[.Copy none, .CreateTemp (some name) none] ++ front,
        [.Remove name (osRemove o1.world.fs name).2], by rw [h2]; simp, by simp [Event.isDeferred]⟩,
        ?_, ?_, hs.trans h5⟩
      · intro x hx
        simp only [List.mem_append, List.mem_cons, List.mem_singleton, List.not_mem_nil,
          or_false] at hx
        rcases hx with ((rfl | rfl) | hx) | rfl
        · rfl
        · rfl
        · exact h3 x hx
        · rfl
      · simpa using h4
    · simp [Event.failedBeforeUpload] at hf

/-! ## The edit workflow -/

/-- C7: in a run that returns without error, `GetObject` was asked for the
locator's BucketName and Key, the one `PutObject` request names the same
BucketName and Key, its body is the content the editor left in the temporary
file (what `ReadFile` returned), its content type is `DetectContentType` of
that body, and the store ends with that object at the locator.  In the
scenario `s3://my-bucket/configs/app.yaml`, fetched `a: 1\n`, edited to
`a: 2\n`, the request carries `a: 2\n` to `my-bucket`, `configs/app.yaml`. -/
theorem run_uploads_edited (env : Env) (s : S3Edit) (w : World) (out : Outcome)
    (h : Run env s w = some out) (hok : out.err = none) :
    (∃ name fetched asked updated,
      s3GetObject env w.store ⟨s.BucketName, s.Key⟩ = .ok fetched ∧
      getUserInput editorPrompt editors w.stdin = some asked ∧
      (env.Command asked.value name (fsWrite (fsWrite w.fs name []) name fetched)).1 name
        = some updated ∧
      out.trace =
        [.NewSession none, .GetObject ⟨s.BucketName, s.Key⟩ none, .Copy none,
          .CreateTemp (some name) none, .Write name fetched none, .Close name none]
        ++ asked.stdout.map Event.Print
        ++ [.Command asked.value name none, .ReadFile name updated none,
            .PutObject ⟨s.BucketName, s.Key, updated, env.DetectContentType updated⟩ none,
            .Print savedMessage, .Remove name none, .BodyClose] ∧
      out.world.store
        = s3PutObject w.store ⟨s.BucketName, s.Key, updated, env.DetectContentType updated⟩) ∧
    ParseS3Path "s3://my-bucket/configs/app.yaml".toList = .ok scenarioLocator ∧
    (Run scenarioEnv scenarioLocator scenarioWorld).map (fun o => (o.err, o.trace)) =
      some (none,
        [.NewSession none, .GetObject ⟨"my-bucket".toList, "configs/app.yaml".toList⟩ none,
          .Copy none, .CreateTemp (some "/tmp/S3Edit-1234".toList) none,
          .Write "/tmp/S3Edit-1234".toList (bytes "a: 1\n") none,
          .Close "/tmp/S3Edit-1234".toList none, .Print editorPrompt,
          .Command "vim".toList "/tmp/S3Edit-1234".toList none,
          .ReadFile "/tmp/S3Edit-1234".toList (bytes "a: 2\n") none,
          .PutObject ⟨"my-bucket".toList, "configs/app.yaml".toList, bytes "a: 2\n",
            "text/plain; charset=utf-8".toList⟩ none,
          .Print savedMessage, .Remove "/tmp/S3Edit-1234".toList none, .BodyClose]) := by
  refine ⟨?_, rfl, rfl⟩
  rcases run_cases env s w out h with ⟨e1, he, -, -⟩ | ⟨e1, he, -, -⟩ |
    ⟨fetched, o1, hget, hfe, he, hw, ht⟩
  · rw [he] at hok; cases hok
  · rw [he] at hok; cases hok
  · rcases fetched_cases env s w fetched o1 hfe with ⟨e1, he1, -, -⟩ | ⟨e1, he1, -, -⟩ |
      ⟨name, o2, -, hed, he1, hs1, hfs1, ht1⟩
    · rw [he, he1] at hok; cases hok
    · rw [he, he1] at hok; cases hok
    · obtain ⟨asked, updated, ha, hu, hfs2, hs2, ht2⟩ :=
        edit_success env s _ name fetched o2 hed (by rw [← he1, ← he]; exact hok)
      have hrm : (osRemove o2.world.fs name).2 = none :=
        osRemove_present _ _ updated (by rw [hfs2]; exact hu)
      refine ⟨name, fetched, asked, updated, hget, ha, hu, ?_, ?_⟩
      · rw [ht, ht1, ht2, hrm]
        simp
      · rw [hw, hs1, hs2]

/-- Witness of C7: the run of the scenario. -/
theorem run_uploads_edited_witness :
    ∃ out, Run scenarioEnv scenarioLocator scenarioWorld = some out ∧ out.err = none ∧
      ∃ name updated,
        Event.ReadFile name updated none ∈ out.trace ∧
        out.world.store = s3PutObject scenarioWorld.store
          ⟨"my-bucket".toList, "configs/app.yaml".toList, updated,
            scenarioEnv.DetectContentType updated⟩ := by
  refine ⟨_, rfl, rfl, ?_⟩
  obtain ⟨name, fetched, asked, updated, -, -, -, ht, hs⟩ :=
    (run_uploads_edited scenarioEnv scenarioLocator scenarioWorld _ rfl rfl).1
  exact ⟨name, updated, by rw [ht]; simp, hs⟩

/-- C8: in a run that returns after the temporary file `name` was created,
no file `name` is left and `os.Remove(name)` was called last before the body
was closed, whatever the error returned; `os.Remove` of a missing file changes
no file and only reports an error, which `Run` drops.  In the scenario with an
editor that removes the file, `Run` returns the error of `ReadFile` and the
removal reports that there is no such file. -/
theorem run_removes_temp (env : Env) (s : S3Edit) (w : World) (out : Outcome)
    (name : GoString) (h : Run env s w = some out)
    (hc : Event.CreateTemp (some name) none ∈ out.trace) :
    out.world.fs name = none ∧
    (∃ front rerr, out.trace = front ++ [.Remove name rerr, .BodyClose]) ∧
    (∀ fs : Files, fs name = none →
      osRemove fs name = (fs, some (notExist "remove".toList name))) ∧
    (Run scenarioEnvRemoving scenarioLocator scenarioWorld).map
        (fun o => (o.err, o.trace.drop 8, o.world.fs "/tmp/S3Edit-1234".toList)) =
      some (some (notExist "open".toList "/tmp/S3Edit-1234".toList),
        [.ReadFile "/tmp/S3Edit-1234".toList [] (some (notExist "open".toList "/tmp/S3Edit-1234".toList)),
          .Remove "/tmp/S3Edit-1234".toList (some (notExist "remove".toList "/tmp/S3Edit-1234".toList)),
          .BodyClose], none) := by
  have key : out.world.fs name = none ∧
      ∃ front rerr, out.trace = front ++ [.Remove name rerr, .BodyClose] := by
    rcases run_cases env s w out h with ⟨e1, -, -, ht⟩ | ⟨e1, -, -, ht⟩ |
      ⟨fetched, o1, -, hfe, -, hw, ht⟩
    · rw [ht] at hc; simp at hc
    · rw [ht] at hc; simp at hc
    · rcases fetched_cases env s w fetched o1 hfe with ⟨e1, -, -, ht1⟩ | ⟨e1, -, -, ht1⟩ |
        ⟨name1, o2, -, hed, -, -, hfs1, ht1⟩
      · rw [ht, ht1] at hc; simp at hc
      · rw [ht, ht1] at hc; simp at hc
      · have hno := edit_no_createTemp env s _ name1 fetched o2 hed (some name) none
        rw [ht, ht1] at hc
        simp only [List.mem_append, List.mem_cons, List.mem_singleton, List.not_mem_nil,
          or_false, hno, Event.CreateTemp.injEq, Option.some.injEq, and_true, reduceCtorEq,
          false_or] at hc
        have hname : name = name1 := by simpa using hc
        subst hname
        refine ⟨by rw [hw, hfs1]; exact osRemove_gone _ _,
          [.NewSession none, .GetObject ⟨s.BucketName, s.Key⟩ none, .Copy none,
            .CreateTemp (some name) none] ++ o2.trace, (osRemove o2.world.fs name).2, ?_⟩
        rw [ht, ht1]
        simp
  exact ⟨key.1, key.2, fun fs hfs => osRemove_missing fs name hfs, rfl⟩

/-- Witness of C8: the run of the scenario with an editor that exits with a
non-zero status. -/
theorem run_removes_temp_witness :
    ∃ out, Run scenarioEnvExit scenarioLocator scenarioWorld = some out ∧
      out.err = some ⟨"exit status 1".toList⟩ ∧ out.world.fs "/tmp/S3Edit-1234".toList = none :=
  ⟨_, rfl, rfl,
    (run_removes_temp scenarioEnvExit scenarioLocator scenarioWorld _ "/tmp/S3Edit-1234".toList
      rfl (by decide)).1⟩

/-- C9: in a run where a step before the upload failed with error `e` (the
session, the fetch, the copy of the body, the creation, write or close of the
temporary file, the editor, the re-read), `Run` returns `e`, the only calls
after the failed one are the deferred ones, there is no `PutObject` request,
the store is as it was and the message of success is not printed. -/
theorem run_failure_before_upload (env : Env) (s : S3Edit) (w : World) (out : Outcome)
    (ev : Event) (e : GoError) (h : Run env s w = some out) (hev : ev ∈ out.trace)
    (hf : ev.failedBeforeUpload = some e) :
    out.err = some e ∧
    (∃ front later, out.trace = front ++ ev :: later ∧ ∀ x ∈ later, x.isDeferred = true) ∧
    (∀ x ∈ out.trace, x.isPutObject = false) ∧
    out.world.store = w.store ∧
    Event.Print savedMessage ∉ out.trace := by
  rcases run_cases env s w out h with ⟨e1, he, hs, ht⟩ | ⟨e1, he, hs, ht⟩ |
    ⟨fetched, o1, -, hfe, he, hw, ht⟩
  · rw [ht] at hev ⊢
    simp only [List.mem_singleton] at hev
    subst hev
    simp only [Event.failedBeforeUpload, Option.some.injEq] at hf
    subst hf
    exact ⟨he, ⟨[], [], rfl, by simp⟩, by simp [Event.isPutObject], hs, by simp⟩
  · rw [ht] at hev ⊢
    simp only [List.mem_cons, List.mem_singleton, List.not_mem_nil, or_false] at hev
    rcases hev with rfl | rfl
    · simp [Event.failedBeforeUpload] at hf
    · simp only [Event.failedBeforeUpload, Option.some.injEq] at hf
      subst hf
      exact ⟨he, ⟨[_], [], rfl, by simp⟩, by simp [Event.isPutObject], hs, by simp⟩
  · rw [ht] at hev ⊢
    simp only [List.mem_append, List.mem_cons, List.mem_singleton, List.not_mem_nil,
      or_false] at hev
    rcases hev with ((rfl | rfl) | hev) | rfl
    · simp [Event.failedBeforeUpload] at hf
    · simp [Event.failedBeforeUpload] at hf
    · obtain ⟨h1, ⟨front, later, h2, h2d⟩, h3, h4, h5⟩ :=
        fetched_failure env s w fetched o1 hfe ev hev e hf
      refine ⟨he.trans h1,
        ⟨[.NewSession none, .GetObject ⟨s.BucketName, s.Key⟩ none] ++ front,
          later ++ [.BodyClose], by rw [h2]; simp, ?_⟩, ?_, by rw [hw]; exact h5, ?_⟩
      · intro x hx
        simp only [List.mem_append, List.mem_singleton] at hx
        rcases hx with hx | rfl
        · exact h2d x hx
        · rfl
      · intro x hx
        simp only [List.mem_append, List.mem_cons, List.mem_singleton, List.not_mem_nil,
          or_false] at hx
        rcases hx with ((rfl | rfl) | hx) | rfl
        · rfl
        · rfl
        · exact h3 x hx
        · rfl
      · simpa using h4
    · simp [Event.failedBeforeUpload] at hf

/-- Witness of C9: the run of the scenario with an editor that exits with a
non-zero status. -/
theorem run_failure_before_upload_witness :
    ∃ out, Run scenarioEnvExit scenarioLocator scenarioWorld = some out ∧
      out.err = some ⟨"exit status 1".toList⟩ ∧
      (∀ x ∈ out.trace, x.isPutObject = false) ∧
      out.world.store = scenarioWorld.store :=
  have hrun := run_failure_before_upload scenarioEnvExit scenarioLocator scenarioWorld _
    (.Command "vim".toList "/tmp/S3Edit-1234".toList (some ⟨"exit status 1".toList⟩))
    ⟨"exit status 1".toList⟩ rfl (by decide) rfl
  ⟨_, rfl, hrun.1, hrun.2.2.1, hrun.2.2.2.1⟩

end s3edit
